import Mathlib

/-!
Shallow embedding of `src/DensLowRank/model/continuous/low_rank.py` and
verification of the specification claims about it.

Conventions of the embedding:
* Python/numpy floating-point numbers are modelled as real numbers (`ℝ`);
  transcendental expressions (`np.log`, `np.sqrt`, fractional `**`) are the
  exact real functions `Real.log`, `Real.sqrt`, `Real.rpow`.
* Histograms `Y : numpy.ndarray` of shape `(d1, d2)` are functions
  `Fin d1 → Fin d2 → ℝ`; 1-d sample arrays are `List ℝ`.
* Python exceptions are modelled with an explicit error type `PyErr` and
  `Except PyErr` results where the code can raise.
* `numpy.linalg.svd` is not re-implemented; it enters the embedding as an
  oracle (a parameter producing `U`, `s`, `Vh` of the shapes numpy returns,
  with its documented properties taken as hypotheses where a claim needs
  them).
-/

namespace DensLowRank

/-- Errors the Python interpreter can raise while running the code of
`low_rank.py`, plus the typed errors named by the specification
(`InvalidBandwidth`, `DegenerateInput`) so that claims mentioning them can be
stated.  The source itself never raises a typed error. -/
inductive PyErr : Type
  | nameError : PyErr
  | zeroDivision : PyErr
  | valueError : PyErr
  | axisError : PyErr
  | invalidBandwidth : PyErr
  | degenerateInput : PyErr
deriving DecidableEq, Repr

/-! ### Marginal dyadic partitioning (lines 104–118 of `our_algo`)

The loop over `t in range(T+1)` selects, at level `t < T`, the indices with
`p <= 2**(-t) and p > 2**(-t-1)` and, at the terminal level `t = T`, the
indices with `p <= 2**(-T)`. -/

/-- Number of dyadic levels minus one: `T = int(np.log(d)/np.log(2))`.
For `d ≥ 1` this is `⌊log₂ d⌋`, i.e. `Nat.log 2 d` (the float quotient
`np.log(d)/np.log(2)` is assumed to round to a value whose truncation is the
exact `⌊log₂ d⌋`, which holds for all moderate `d`). -/
def Tlev (d : ℕ) : ℕ := Nat.log 2 d

/-- Membership condition of the dyadic band at level `t` (out of `0..T`),
exactly as tested by `np.argwhere` in the source: for `t < T` the half-open
band `(2^{-t-1}, 2^{-t}]`, for the terminal level the tail `≤ 2^{-T}`. -/
def bandCond (T t : ℕ) (x : ℝ) : Prop :=
  if t < T then x ≤ (2:ℝ) ^ (-(t:ℤ)) ∧ (2:ℝ) ^ (-(t:ℤ) - 1) < x
  else x ≤ (2:ℝ) ^ (-(T:ℤ))

theorem bandCond_lt {T t : ℕ} {x : ℝ} (h : t < T) :
    bandCond T t x ↔ (x ≤ (2:ℝ) ^ (-(t:ℤ)) ∧ (2:ℝ) ^ (-(t:ℤ) - 1) < x) := by
  simp [bandCond, h]

theorem bandCond_last {T t : ℕ} {x : ℝ} (h : ¬ t < T) :
    bandCond T t x ↔ x ≤ (2:ℝ) ^ (-(T:ℤ)) := by
  simp [bandCond, h]

/-- The dyadic bands of levels `0..T` are pairwise disjoint: an index value
can satisfy the band condition at no more than one level. -/
theorem bandCond_unique {T t u : ℕ} {x : ℝ}
    (ht : t ≤ T) (hu : u ≤ T) (hxt : bandCond T t x) (hxu : bandCond T u x) :
    t = u := by
  by_contra hne
  -- without loss of generality `t < u`
  rcases Nat.lt_or_ge t u with hlt | hge
  · have htT : t < T := lt_of_lt_of_le hlt hu
    have hx1 := (bandCond_lt htT).1 hxt
    have hub : x ≤ (2:ℝ) ^ (-(t:ℤ) - 1) := by
      rcases Nat.lt_or_ge u T with huT | huT
      · have hx2 := (bandCond_lt huT).1 hxu
        calc x ≤ (2:ℝ) ^ (-(u:ℤ)) := hx2.1
          _ ≤ (2:ℝ) ^ (-(t:ℤ) - 1) := by
              apply zpow_le_zpow_right₀ (by norm_num)
              omega
      · have hx2 := (bandCond_last (not_lt.mpr huT)).1 hxu
        calc x ≤ (2:ℝ) ^ (-(T:ℤ)) := hx2
          _ ≤ (2:ℝ) ^ (-(t:ℤ) - 1) := by
              apply zpow_le_zpow_right₀ (by norm_num)
              omega
    exact absurd (lt_of_lt_of_le hx1.2 hub) (lt_irrefl _)
  · have hut : u < t := lt_of_le_of_ne hge (fun h => hne h.symm)
    have huT : u < T := lt_of_lt_of_le hut ht
    have hx2 := (bandCond_lt huT).1 hxu
    have hub : x ≤ (2:ℝ) ^ (-(u:ℤ) - 1) := by
      rcases Nat.lt_or_ge t T with htT | htT
      · have hx1 := (bandCond_lt htT).1 hxt
        calc x ≤ (2:ℝ) ^ (-(t:ℤ)) := hx1.1
          _ ≤ (2:ℝ) ^ (-(u:ℤ) - 1) := by
              apply zpow_le_zpow_right₀ (by norm_num)
              omega
      · have hx1 := (bandCond_last (not_lt.mpr htT)).1 hxt
        calc x ≤ (2:ℝ) ^ (-(T:ℤ)) := hx1
          _ ≤ (2:ℝ) ^ (-(u:ℤ) - 1) := by
              apply zpow_le_zpow_right₀ (by norm_num)
              omega
    exact absurd (lt_of_lt_of_le hx2.2 hub) (lt_irrefl _)

/-- Existence half of partition totality, valid for values `≤ 1`: every
such value satisfies the band condition at some level `t ≤ T`. -/
theorem bandCond_exists {T : ℕ} {x : ℝ} (hx : x ≤ 1) :
    ∃ t, t ≤ T ∧ bandCond T t x := by
  by_cases hterm : x ≤ (2:ℝ) ^ (-(T:ℤ))
  · exact ⟨T, le_refl T, (bandCond_last (lt_irrefl T)).2 hterm⟩
  · -- `x > 2^{-T}`: take the greatest `t` with `x ≤ 2^{-t}` (it exists since
    -- `x ≤ 1 = 2^0`), which is `< T`; the next band bound is then exceeded.
    classical
    set P : ℕ → Prop := fun t => x ≤ (2:ℝ) ^ (-(t:ℤ)) with hP
    have hP0 : P 0 := by simpa [hP] using hx
    set t0 : ℕ := Nat.findGreatest P T with ht0
    have hPt0 : P t0 := Nat.findGreatest_spec (Nat.zero_le T) hP0
    have ht0T : t0 ≤ T := Nat.findGreatest_le T
    have ht0ltT : t0 < T := by
      rcases Nat.lt_or_ge t0 T with h | h
      · exact h
      · exfalso
        have : t0 = T := le_antisymm ht0T h
        rw [this] at hPt0
        exact hterm hPt0
    have hnext : ¬ P (t0 + 1) :=
      Nat.findGreatest_is_greatest (Nat.lt_succ_self t0) (by omega)
    refine ⟨t0, le_of_lt ht0ltT, ?_⟩
    rw [bandCond_lt ht0ltT]
    constructor
    · exact hPt0
    · have h1 : ¬ x ≤ (2:ℝ) ^ (-(t0:ℤ) - 1) := by
        intro hle
        apply hnext
        show x ≤ (2:ℝ) ^ (-((t0 + 1 : ℕ):ℤ))
        convert hle using 2
        push_cast
        ring
      exact not_le.mp h1

/-- Totality and uniqueness of the dyadic assignment for values `≤ 1`. -/
theorem bandCond_existsUnique {T : ℕ} {x : ℝ} (hx : x ≤ 1) :
    ∃! t, t ≤ T ∧ bandCond T t x := by
  obtain ⟨t, htT, hband⟩ := @bandCond_exists T x hx
  exact ⟨t, ⟨htT, hband⟩, fun u hu => bandCond_unique hu.1 htT hu.2 hband⟩

/-! ### The Low-Rank Block Estimator `our_algo` (lines 58–142)

The source references `d1, d2` in `res = np.zeros((d1,d2))` although the
lines deriving them from `np.shape(Y1)` (lines 96–97) are commented out and
the module never defines such globals; here the shape is carried by the type
of `Y1`/`Y2` (the value the commented-out derivation and the docstring
intend).  The literal enclosing-scope behaviour is modelled separately as
`our_algoModule` for the claim about it. -/

/-- Data returned by `np.linalg.svd` on an `m × k` matrix with the default
`full_matrices=True`: `U` is `m × m`, `s` has `min(m,k)` entries, `Vh` is
`k × k`. -/
structure SVDData (m k : ℕ) : Type where
  U : Fin m → Fin m → ℝ
  s : Fin (min m k) → ℝ
  Vh : Fin k → Fin k → ℝ

/-- An SVD routine: for every shape, some decomposition data.  The embedding
of `our_algo` is parametric in it; properties of numpy's actual output
(e.g. that `s` is sorted in descending order) appear as hypotheses of the
theorems that need them. -/
def SVDOracle : Type := ∀ m k : ℕ, (Fin m → Fin k → ℝ) → SVDData m k

/-- Row marginals `p = np.sum(Y1, axis=1)`. -/
def rowMarg {d1 d2 : ℕ} (Y : Fin d1 → Fin d2 → ℝ) : Fin d1 → ℝ :=
  fun i => ∑ j, Y i j

/-- Column marginals `q = np.sum(Y1, axis=0)`. -/
def colMarg {d1 d2 : ℕ} (Y : Fin d1 → Fin d2 → ℝ) : Fin d2 → ℝ :=
  fun j => ∑ i, Y i j

open Classical in
/-- The bucket of indices selected by `np.argwhere` at level `t`:
all `i` with `bandCond T t (v i)`.  `np.argwhere` lists them in increasing
order, which is the order of `Finset.orderIsoOfFin` below. -/
noncomputable def bucket {k : ℕ} (T t : ℕ) (v : Fin k → ℝ) : Finset (Fin k) :=
  Finset.univ.filter (fun i => bandCond T t (v i))

theorem mem_bucket {k : ℕ} {T t : ℕ} {v : Fin k → ℝ} {i : Fin k} :
    i ∈ bucket T t v ↔ bandCond T t (v i) := by
  classical
  simp [bucket]

/-- The submatrix `M` of `Y2` restricted to bucket rows `I` and bucket
columns `J` (`M[i,j] = Y2[I[i],J[j]]`), rows and columns listed in
increasing index order as `np.argwhere` produces them. -/
noncomputable def blockSub {d1 d2 : ℕ} (I : Finset (Fin d1)) (J : Finset (Fin d2))
    (Y2 : Fin d1 → Fin d2 → ℝ) : Fin I.card → Fin J.card → ℝ :=
  fun a b => Y2 (I.orderIsoOfFin rfl a) (J.orderIsoOfFin rfl b)

/-- Total `np.sum(M)` of the extracted block. -/
noncomputable def blockMass {d1 d2 : ℕ} (I : Finset (Fin d1)) (J : Finset (Fin d2))
    (Y2 : Fin d1 → Fin d2 → ℝ) : ℝ :=
  ∑ a, ∑ b, blockSub I J Y2 a b

/-- The block total is the sum of `Y2` over the bucket index sets. -/
theorem blockMass_eq {d1 d2 : ℕ} (I : Finset (Fin d1)) (J : Finset (Fin d2))
    (Y2 : Fin d1 → Fin d2 → ℝ) :
    blockMass I J Y2 = ∑ i ∈ I, ∑ j ∈ J, Y2 i j := by
  unfold blockMass blockSub
  have hJ : ∀ x : Fin d1,
      (∑ b : Fin J.card, Y2 x ((J.orderIsoOfFin rfl) b)) = ∑ j ∈ J, Y2 x j := by
    intro x
    rw [← Finset.sum_coe_sort J (fun j => Y2 x j)]
    exact (J.orderIsoOfFin rfl).toEquiv.sum_comp (fun y => Y2 x (↑y))
  calc (∑ a : Fin I.card, ∑ b : Fin J.card,
          Y2 ((I.orderIsoOfFin rfl) a) ((J.orderIsoOfFin rfl) b))
      = ∑ a : Fin I.card, ∑ j ∈ J, Y2 ((I.orderIsoOfFin rfl) a) j :=
        Finset.sum_congr rfl (fun a _ => hJ _)
    _ = ∑ i ∈ I, ∑ j ∈ J, Y2 i j := by
        rw [← Finset.sum_coe_sort I (fun i => ∑ j ∈ J, Y2 i j)]
        exact (I.orderIsoOfFin rfl).toEquiv.sum_comp (fun y => ∑ j ∈ J, Y2 (↑y) j)

/-- Energy-test threshold `2*Cbar*alpha*np.log(d)/(n*np.log(2))`. -/
noncomputable def energyThr (n d : ℕ) (alpha Cbar : ℝ) : ℝ :=
  2 * Cbar * alpha * Real.log d / (n * Real.log 2)

/-- Singular-value threshold `tau = np.log(d)*np.sqrt(cstar*2**(1-min(t,u))/n)`. -/
noncomputable def tauThr (n d : ℕ) (cstar : ℝ) (t u : ℕ) : ℝ :=
  Real.log d * Real.sqrt (cstar * (2:ℝ) ^ ((1:ℤ) - (min t u : ℤ)) / n)

open Classical in
/-- Number `l = len(s[s>=tau])` of retained singular values. -/
noncomputable def retainedCount {m k : ℕ} (s : Fin (min m k) → ℝ) (τ : ℝ) : ℕ :=
  (Finset.univ.filter (fun c => τ ≤ s c)).card

/-- Rank-`l` reconstruction `H = np.dot(U[:,:l]*s[:l], Vh[:l,:])`, entrywise
`H[a,b] = Σ_{c<l} U[a,c]·s[c]·Vh[c,b]`. -/
noncomputable def reconstruct {m k : ℕ} (D : SVDData m k) (l : ℕ) :
    Fin m → Fin k → ℝ :=
  fun a b => ∑ c : Fin (min m k),
    if (c : ℕ) < l then
      D.U a (Fin.castLE (min_le_left m k) c) * D.s c *
        D.Vh (Fin.castLE (min_le_right m k) c) b
    else 0

open Classical in
/-- Value written by the SVD branch at a full-matrix position `(i,j)` of
block `(I,J)`: the entry of `H` at the positions of `i` in `I` and `j` in
`J` (`res[I[i],J[j]] = H[i,j]`).  Positions outside the block are unused by
the write and get an arbitrary `0`. -/
noncomputable def svdBranchVal {d1 d2 : ℕ} (svdOf : SVDOracle)
    (I : Finset (Fin d1)) (J : Finset (Fin d2))
    (Y2 : Fin d1 → Fin d2 → ℝ) (τ : ℝ) : Fin d1 → Fin d2 → ℝ :=
  fun i j =>
    if hi : i ∈ I then
      if hj : j ∈ J then
        let D := svdOf I.card J.card (blockSub I J Y2)
        reconstruct D (retainedCount D.s τ)
          ((I.orderIsoOfFin rfl).symm ⟨i, hi⟩) ((J.orderIsoOfFin rfl).symm ⟨j, hj⟩)
      else 0
    else 0

open Classical in
/-- One write of a block into the result matrix: positions in `I × J` get
the block value, others keep their previous contents. -/
noncomputable def blockWrite {d1 d2 : ℕ} (I : Finset (Fin d1)) (J : Finset (Fin d2))
    (v res : Fin d1 → Fin d2 → ℝ) : Fin d1 → Fin d2 → ℝ :=
  fun i j => if i ∈ I ∧ j ∈ J then v i j else res i j

open Classical in
/-- Body of the double loop of `our_algo` for the pair `(t,u)`: extract the
block, run the energy test, and write either the copied `Y2` values or the
truncated-SVD reconstruction. -/
noncomputable def blockStep {d1 d2 : ℕ} (svdOf : SVDOracle) (n d : ℕ)
    (Y2 : Fin d1 → Fin d2 → ℝ) (p : Fin d1 → ℝ) (q : Fin d2 → ℝ)
    (alpha cstar Cbar : ℝ) (t u : ℕ)
    (res : Fin d1 → Fin d2 → ℝ) : Fin d1 → Fin d2 → ℝ :=
  let T := Tlev d
  let I := bucket T t p
  let J := bucket T u q
  if blockMass I J Y2 < energyThr n d alpha Cbar then
    blockWrite I J Y2 res
  else
    blockWrite I J (svdBranchVal svdOf I J Y2 (tauThr n d cstar t u)) res

/-- The assembled (pre-normalization) result matrix `res` after both loops
of the non-degenerate branch, starting from `np.zeros((d1,d2))`. -/
noncomputable def assembled {d1 d2 : ℕ} (svdOf : SVDOracle) (n d : ℕ)
    (Y1 Y2 : Fin d1 → Fin d2 → ℝ) (alpha cstar Cbar : ℝ) :
    Fin d1 → Fin d2 → ℝ :=
  let T := Tlev d
  let p := rowMarg Y1
  let q := colMarg Y1
  (List.range (T + 1)).foldl
    (fun res t =>
      (List.range (T + 1)).foldl
        (fun r u => blockStep svdOf n d Y2 p q alpha cstar Cbar t u r) res)
    (fun _ _ => 0)

open Classical in
/-- Value the `(t,u)` iteration writes into the positions of its block:
the copied `Y2` entry when the energy test fires, the truncated-SVD
reconstruction otherwise. -/
noncomputable def blockVal {d1 d2 : ℕ} (svdOf : SVDOracle) (n d : ℕ)
    (Y2 : Fin d1 → Fin d2 → ℝ) (p : Fin d1 → ℝ) (q : Fin d2 → ℝ)
    (alpha cstar Cbar : ℝ) (t u : ℕ) : Fin d1 → Fin d2 → ℝ :=
  let T := Tlev d
  let I := bucket T t p
  let J := bucket T u q
  if blockMass I J Y2 < energyThr n d alpha Cbar then Y2
  else svdBranchVal svdOf I J Y2 (tauThr n d cstar t u)

theorem blockStep_notmem {d1 d2 : ℕ} (svdOf : SVDOracle) (n d : ℕ)
    (Y2 : Fin d1 → Fin d2 → ℝ) (p : Fin d1 → ℝ) (q : Fin d2 → ℝ)
    (alpha cstar Cbar : ℝ) (t u : ℕ) (res : Fin d1 → Fin d2 → ℝ)
    {i : Fin d1} {j : Fin d2}
    (h : ¬ (i ∈ bucket (Tlev d) t p ∧ j ∈ bucket (Tlev d) u q)) :
    blockStep svdOf n d Y2 p q alpha cstar Cbar t u res i j = res i j := by
  unfold blockStep blockWrite
  by_cases hE : blockMass (bucket (Tlev d) t p) (bucket (Tlev d) u q) Y2 <
      energyThr n d alpha Cbar
  · simp only [hE, if_true, if_neg h]
  · simp only [hE, if_false, if_neg h]

theorem blockStep_mem {d1 d2 : ℕ} (svdOf : SVDOracle) (n d : ℕ)
    (Y2 : Fin d1 → Fin d2 → ℝ) (p : Fin d1 → ℝ) (q : Fin d2 → ℝ)
    (alpha cstar Cbar : ℝ) (t u : ℕ) (res : Fin d1 → Fin d2 → ℝ)
    {i : Fin d1} {j : Fin d2}
    (hi : i ∈ bucket (Tlev d) t p) (hj : j ∈ bucket (Tlev d) u q) :
    blockStep svdOf n d Y2 p q alpha cstar Cbar t u res i j =
      blockVal svdOf n d Y2 p q alpha cstar Cbar t u i j := by
  unfold blockStep blockWrite blockVal
  by_cases hE : blockMass (bucket (Tlev d) t p) (bucket (Tlev d) u q) Y2 <
      energyThr n d alpha Cbar
  · simp only [hE, if_true, if_pos (And.intro hi hj)]
  · simp only [hE, if_false, if_pos (And.intro hi hj)]

/-- An inner-loop fold over column levels leaves an entry unchanged when no
listed level writes to it. -/
theorem innerFold_preserve {d1 d2 : ℕ} (svdOf : SVDOracle) (n d : ℕ)
    (Y2 : Fin d1 → Fin d2 → ℝ) (p : Fin d1 → ℝ) (q : Fin d2 → ℝ)
    (alpha cstar Cbar : ℝ) (t : ℕ) {i : Fin d1} {j : Fin d2}
    (lu : List ℕ) (res : Fin d1 → Fin d2 → ℝ)
    (h : ∀ u ∈ lu, ¬ (i ∈ bucket (Tlev d) t p ∧ j ∈ bucket (Tlev d) u q)) :
    (lu.foldl (fun r u => blockStep svdOf n d Y2 p q alpha cstar Cbar t u r)
      res) i j = res i j := by
  induction lu generalizing res with
  | nil => rfl
  | cons a rest ih =>
      rw [List.foldl_cons, ih _ (fun u hu => h u (List.mem_cons_of_mem a hu))]
      exact blockStep_notmem svdOf n d Y2 p q alpha cstar Cbar t a res
        (h a (List.mem_cons_self a rest))

/-- An inner-loop fold writes `blockVal t u*` to entry `(i,j)` when `j` is
at column level `u*` (and `i` at row level `t`), for any duplicate-free list
of levels `≤ T` containing `u*`. -/
theorem innerFold_hit {d1 d2 : ℕ} (svdOf : SVDOracle) (n d : ℕ)
    (Y2 : Fin d1 → Fin d2 → ℝ) (p : Fin d1 → ℝ) (q : Fin d2 → ℝ)
    (alpha cstar Cbar : ℝ) (t : ℕ) {i : Fin d1} {j : Fin d2} {uu : ℕ}
    (lu : List ℕ) (res : Fin d1 → Fin d2 → ℝ)
    (hmem : uu ∈ lu) (hle : ∀ u ∈ lu, u ≤ Tlev d) (hnd : lu.Nodup)
    (huu : uu ≤ Tlev d)
    (hi : i ∈ bucket (Tlev d) t p) (hj : j ∈ bucket (Tlev d) uu q) :
    (lu.foldl (fun r u => blockStep svdOf n d Y2 p q alpha cstar Cbar t u r)
      res) i j = blockVal svdOf n d Y2 p q alpha cstar Cbar t uu i j := by
  induction lu generalizing res with
  | nil => exact absurd hmem (List.not_mem_nil uu)
  | cons a rest ih =>
      rw [List.foldl_cons]
      by_cases ha : a = uu
      · subst ha
        have hrest : ∀ u ∈ rest, ¬ (i ∈ bucket (Tlev d) t p ∧
            j ∈ bucket (Tlev d) u q) := by
          intro u hu hcontra
          have hne : u ≠ a := by
            intro h
            subst h
            exact (List.nodup_cons.mp hnd).1 hu
          exact hne (bandCond_unique (hle u (List.mem_cons_of_mem a hu)) huu
            (mem_bucket.mp hcontra.2) (mem_bucket.mp hj))
        rw [innerFold_preserve svdOf n d Y2 p q alpha cstar Cbar t rest _ hrest]
        exact blockStep_mem svdOf n d Y2 p q alpha cstar Cbar t a res hi hj
      · have hmem' : uu ∈ rest := by
          rcases List.mem_cons.mp hmem with h | h
          · exact absurd h.symm ha
          · exact h
        rw [ih _ hmem' (fun u hu => hle u (List.mem_cons_of_mem a hu))
          (List.nodup_cons.mp hnd).2]

/-- An outer-loop fold over row levels leaves an entry unchanged when `i`
is at none of the listed row levels. -/
theorem outerFold_preserve {d1 d2 : ℕ} (svdOf : SVDOracle) (n d : ℕ)
    (Y2 : Fin d1 → Fin d2 → ℝ) (p : Fin d1 → ℝ) (q : Fin d2 → ℝ)
    (alpha cstar Cbar : ℝ) {i : Fin d1} {j : Fin d2}
    (lt : List ℕ) (res : Fin d1 → Fin d2 → ℝ)
    (h : ∀ t ∈ lt, i ∉ bucket (Tlev d) t p) :
    (lt.foldl (fun res t => (List.range (Tlev d + 1)).foldl
        (fun r u => blockStep svdOf n d Y2 p q alpha cstar Cbar t u r) res)
      res) i j = res i j := by
  induction lt generalizing res with
  | nil => rfl
  | cons a rest ih =>
      rw [List.foldl_cons, ih _ (fun t htt => h t (List.mem_cons_of_mem a htt))]
      exact innerFold_preserve svdOf n d Y2 p q alpha cstar Cbar a _ res
        (fun u _ hc => h a (List.mem_cons_self a rest) hc.1)

/-- Entry characterization of the assembled result matrix: an entry whose
row marginal is at level `t*` and column marginal at level `u*` holds the
value written by the `(t*,u*)` block, because the dyadic buckets are
pairwise disjoint and each block is written exactly once. -/
theorem assembled_eq_blockVal {d1 d2 : ℕ} (svdOf : SVDOracle) (n d : ℕ)
    (Y1 Y2 : Fin d1 → Fin d2 → ℝ) (alpha cstar Cbar : ℝ)
    {i : Fin d1} {j : Fin d2} {tt uu : ℕ}
    (ht : tt ≤ Tlev d) (hu : uu ≤ Tlev d)
    (hi : bandCond (Tlev d) tt (rowMarg Y1 i))
    (hj : bandCond (Tlev d) uu (colMarg Y1 j)) :
    assembled svdOf n d Y1 Y2 alpha cstar Cbar i j =
      blockVal svdOf n d Y2 (rowMarg Y1) (colMarg Y1) alpha cstar Cbar tt uu i j := by
  have hi' : i ∈ bucket (Tlev d) tt (rowMarg Y1) := mem_bucket.mpr hi
  have hj' : j ∈ bucket (Tlev d) uu (colMarg Y1) := mem_bucket.mpr hj
  unfold assembled
  -- walk the outer fold down to the iteration at `tt`
  have main : ∀ (lt : List ℕ) (res : Fin d1 → Fin d2 → ℝ),
      tt ∈ lt → (∀ t ∈ lt, t ≤ Tlev d) → lt.Nodup →
      (lt.foldl (fun res t => (List.range (Tlev d + 1)).foldl
          (fun r u => blockStep svdOf n d Y2 (rowMarg Y1) (colMarg Y1)
            alpha cstar Cbar t u r) res) res) i j =
        blockVal svdOf n d Y2 (rowMarg Y1) (colMarg Y1) alpha cstar Cbar tt uu i j := by
    intro lt
    induction lt with
    | nil => intro res hmem; exact absurd hmem (List.not_mem_nil tt)
    | cons a rest ih =>
        intro res hmem hle hnd
        rw [List.foldl_cons]
        by_cases ha : a = tt
        · subst ha
          have hrest : ∀ t ∈ rest, i ∉ bucket (Tlev d) t (rowMarg Y1) := by
            intro t htt hcontra
            have hne : t ≠ a := by
              intro h
              subst h
              exact (List.nodup_cons.mp hnd).1 htt
            exact hne (bandCond_unique (hle t (List.mem_cons_of_mem a htt)) ht
              (mem_bucket.mp hcontra) hi)
          rw [outerFold_preserve svdOf n d Y2 (rowMarg Y1) (colMarg Y1)
            alpha cstar Cbar rest _ hrest]
          exact innerFold_hit svdOf n d Y2 (rowMarg Y1) (colMarg Y1)
            alpha cstar Cbar a (List.range (Tlev d + 1)) res
            (List.mem_range.mpr (Nat.lt_succ_of_le hu))
            (fun u huu => Nat.lt_succ_iff.mp (List.mem_range.mp huu))
            (List.nodup_range _) hu hi' hj'
        · have hmem' : tt ∈ rest := by
            rcases List.mem_cons.mp hmem with h | h
            · exact absurd h.symm ha
            · exact h
          have hstep : ((List.range (Tlev d + 1)).foldl
              (fun r u => blockStep svdOf n d Y2 (rowMarg Y1) (colMarg Y1)
                alpha cstar Cbar a u r) res) i j = res i j := by
            apply innerFold_preserve
            intro u _ hcontra
            exact ha (bandCond_unique (hle a (List.mem_cons_self a rest)) ht
              (mem_bucket.mp hcontra.1) hi)
          exact ih _ hmem' (fun t htt => hle t (List.mem_cons_of_mem a htt))
            (List.nodup_cons.mp hnd).2
  exact main (List.range (Tlev d + 1)) _
    (List.mem_range.mpr (Nat.lt_succ_of_le ht))
    (fun t htt => Nat.lt_succ_iff.mp (List.mem_range.mp htt))
    (List.nodup_range _)

/-- Grand total `np.sum(res)` of the assembled matrix. -/
noncomputable def assembledTotal {d1 d2 : ℕ} (svdOf : SVDOracle) (n d : ℕ)
    (Y1 Y2 : Fin d1 → Fin d2 → ℝ) (alpha cstar Cbar : ℝ) : ℝ :=
  ∑ i, ∑ j, assembled svdOf n d Y1 Y2 alpha cstar Cbar i j

open Classical in
/-- The Low-Rank Block Estimator `our_algo(n,d,Y1,Y2,alpha,cstar,Cbar)`:
degenerate regime `(Y1+Y2)/2` when `n <= d*np.log(d)`, otherwise the
assembled block matrix divided by its total sum.  The division is the bare
`res/np.sum(res)` of line 142 — the source performs no zero check and raises
nothing (numpy turns a zero total into `nan` entries plus a warning; the
real-number model gives division by zero). -/
noncomputable def our_algo {d1 d2 : ℕ} (svdOf : SVDOracle) (n d : ℕ)
    (Y1 Y2 : Fin d1 → Fin d2 → ℝ) (alpha cstar Cbar : ℝ) :
    Fin d1 → Fin d2 → ℝ :=
  if (n:ℝ) ≤ (d:ℝ) * Real.log d then
    fun i j => (Y1 i j + Y2 i j) / 2
  else
    fun i j => assembled svdOf n d Y1 Y2 alpha cstar Cbar i j /
      assembledTotal svdOf n d Y1 Y2 alpha cstar Cbar

open Classical in
/-- Literal module-level behaviour of `our_algo`: the non-degenerate branch
executes `res = np.zeros((d1,d2))` (line 103), whose names `d1, d2` are free
— the derivation `(d1,d2) = np.shape(Y1)` at lines 96–97 is commented out
and the module defines no globals `d1, d2` — so Python raises `NameError`
there.  The degenerate branch touches no such name and succeeds. -/
noncomputable def our_algoModule {d1 d2 : ℕ} (n d : ℕ)
    (Y1 Y2 : Fin d1 → Fin d2 → ℝ) (alpha cstar Cbar : ℝ) :
    Except PyErr (Fin d1 → Fin d2 → ℝ) :=
  if (n:ℝ) ≤ (d:ℝ) * Real.log d then
    Except.ok (fun i j => (Y1 i j + Y2 i j) / 2)
  else
    Except.error PyErr.nameError

/-- A concrete (junk) SVD routine, used only to instantiate the oracle
parameter in witnesses of theorems that hold for every oracle. -/
def zeroSVD : SVDOracle :=
  fun _ _ _ => ⟨fun _ _ => 0, fun _ => 0, fun _ _ => 0⟩

/-- Membership in the retained-index set is an initial segment when the
singular values are sorted in descending order. -/
theorem retainedCount_iff {m k : ℕ} (s : Fin (min m k) → ℝ) (τ : ℝ)
    (hdesc : ∀ a b : Fin (min m k), a ≤ b → s b ≤ s a) (c : Fin (min m k)) :
    (c : ℕ) < retainedCount s τ ↔ τ ≤ s c := by
  classical
  constructor
  · intro hc
    by_contra hnot
    -- if `s c < τ` then every retained index is `< c`, bounding the count
    have hsub : (Finset.univ.filter (fun x => τ ≤ s x)) ⊆ Finset.Iio c := by
      intro x hx
      rw [Finset.mem_filter] at hx
      rw [Finset.mem_Iio]
      by_contra hge
      exact hnot (le_trans hx.2 (hdesc c x (not_lt.mp hge)))
    have hcard := Finset.card_le_card hsub
    rw [Fin.card_Iio] at hcard
    unfold retainedCount at hc
    omega
  · intro hc
    -- all indices `≤ c` are retained, so the count exceeds `c`
    have hsub : Finset.Iic c ⊆ Finset.univ.filter (fun x => τ ≤ s x) := by
      intro x hx
      rw [Finset.mem_Iic] at hx
      rw [Finset.mem_filter]
      exact ⟨Finset.mem_univ x, le_trans hc (hdesc x c hx)⟩
    have hcard := Finset.card_le_card hsub
    rw [Fin.card_Iic] at hcard
    unfold retainedCount
    omega

/-! ### Claim theorems for the Low-Rank Block Estimator -/

/-- C2: whenever `n ≤ d·ln d`, `our_algo` returns exactly `(Y1+Y2)/2`
elementwise — no partitioning, thresholding or normalization happens. -/
theorem claim_C2_degenerate_fallback {d1 d2 : ℕ} (svdOf : SVDOracle) (n d : ℕ)
    (Y1 Y2 : Fin d1 → Fin d2 → ℝ) (alpha cstar Cbar : ℝ)
    (h : (n:ℝ) ≤ (d:ℝ) * Real.log d) :
    our_algo svdOf n d Y1 Y2 alpha cstar Cbar =
      fun i j => (Y1 i j + Y2 i j) / 2 := by
  unfold our_algo
  rw [if_pos h]

/-- Witness for C2 at `n = 1`, `d = 2` (using `1 ≤ 2·ln 2`), with 1×1
histograms `Y1 = [[3]]`, `Y2 = [[5]]`: the output is `[[4]]`. -/
theorem claim_C2_witness :
    ((1:ℕ):ℝ) ≤ ((2:ℕ):ℝ) * Real.log 2 ∧
      our_algo zeroSVD 1 2 (fun (_ : Fin 1) (_ : Fin 1) => (3:ℝ))
        (fun _ _ => (5:ℝ)) 1 1 1 = fun _ _ => (4:ℝ) := by
  have hlog : ((1:ℕ):ℝ) ≤ ((2:ℕ):ℝ) * Real.log 2 := by
    have h2 := Real.log_two_gt_d9
    push_cast
    nlinarith
  refine ⟨hlog, ?_⟩
  rw [claim_C2_degenerate_fallback zeroSVD 1 2 _ _ 1 1 1 hlog]
  funext i j
  norm_num

/-- C4: a block whose extracted submatrix total is below the energy
threshold is copied verbatim from `Y2` into the pre-normalization result:
every entry of the assembled matrix whose row is at level `t` and column at
level `u` equals the corresponding `Y2` entry, with no SVD applied. -/
theorem claim_C4_energy_copy {d1 d2 : ℕ} (svdOf : SVDOracle) (n d : ℕ)
    (Y1 Y2 : Fin d1 → Fin d2 → ℝ) (alpha cstar Cbar : ℝ)
    {i : Fin d1} {j : Fin d2} {t u : ℕ}
    (ht : t ≤ Tlev d) (hu : u ≤ Tlev d)
    (hi : bandCond (Tlev d) t (rowMarg Y1 i))
    (hj : bandCond (Tlev d) u (colMarg Y1 j))
    (hlow : blockMass (bucket (Tlev d) t (rowMarg Y1))
        (bucket (Tlev d) u (colMarg Y1)) Y2 < energyThr n d alpha Cbar) :
    assembled svdOf n d Y1 Y2 alpha cstar Cbar i j = Y2 i j := by
  rw [assembled_eq_blockVal svdOf n d Y1 Y2 alpha cstar Cbar ht hu hi hj]
  unfold blockVal
  simp only [if_pos hlow]

/-- Witness for C4: `n = 4`, `d = 2`, `Y1 = [[1]]`, `Y2 = [[0]]` — row and
column marginals are `1`, putting the single index at level `0`; the block
total `0` is below the threshold `ln 2/(2·ln 2) = 1/2`, so the assembled
entry equals `Y2[0,0] = 0`. -/
theorem claim_C4_witness :
    (0 : ℕ) ≤ Tlev 2 ∧
      bandCond (Tlev 2) 0 (rowMarg (fun (_ : Fin 1) (_ : Fin 1) => (1:ℝ)) 0) ∧
      blockMass (bucket (Tlev 2) 0 (rowMarg (fun (_ : Fin 1) (_ : Fin 1) => (1:ℝ))))
        (bucket (Tlev 2) 0 (colMarg (fun (_ : Fin 1) (_ : Fin 1) => (1:ℝ))))
        (fun _ _ => (0:ℝ)) < energyThr 4 2 1 1 ∧
      assembled zeroSVD 4 2 (fun (_ : Fin 1) (_ : Fin 1) => (1:ℝ))
        (fun _ _ => (0:ℝ)) 1 1 1 0 0 = (fun (_ : Fin 1) (_ : Fin 1) => (0:ℝ)) 0 0 := by
  have hT : Tlev 2 = 1 := by
    unfold Tlev
    exact Nat.log_eq_of_pow_le_of_lt_pow (by norm_num) (by norm_num)
  have hband : bandCond (Tlev 2) 0 (rowMarg (fun (_ : Fin 1) (_ : Fin 1) => (1:ℝ)) 0) := by
    rw [hT]
    unfold bandCond rowMarg
    norm_num
  have hbandc : bandCond (Tlev 2) 0 (colMarg (fun (_ : Fin 1) (_ : Fin 1) => (1:ℝ)) 0) := by
    rw [hT]
    unfold bandCond colMarg
    norm_num
  have hmass : blockMass (bucket (Tlev 2) 0 (rowMarg (fun (_ : Fin 1) (_ : Fin 1) => (1:ℝ))))
      (bucket (Tlev 2) 0 (colMarg (fun (_ : Fin 1) (_ : Fin 1) => (1:ℝ))))
      (fun _ _ => (0:ℝ)) < energyThr 4 2 1 1 := by
    have hz : blockMass (bucket (Tlev 2) 0 (rowMarg (fun (_ : Fin 1) (_ : Fin 1) => (1:ℝ))))
        (bucket (Tlev 2) 0 (colMarg (fun (_ : Fin 1) (_ : Fin 1) => (1:ℝ))))
        (fun _ _ => (0:ℝ)) = 0 := by
      unfold blockMass blockSub
      simp
    rw [hz]
    unfold energyThr
    have hl2 : 0 < Real.log 2 := Real.log_pos (by norm_num)
    push_cast
    positivity
  exact ⟨Nat.zero_le _, hband, hmass,
    claim_C4_energy_copy zeroSVD 4 2 _ _ 1 1 1 (Nat.zero_le _) (by rw [hT]; norm_num)
      hband hbandc hmass⟩

/-- C5: with the threshold `tau = ln(d)·sqrt(cstar·2^{1-min(t,u)}/n)` and
numpy's guarantee that the singular values come sorted in descending order,
the retained indices are exactly those whose singular value is `≥ tau`,
their count never exceeds `min(rows, cols)` of the block, and a retained
count of `0` reconstructs an all-zero block. -/
theorem claim_C5_rank_truncation {m k : ℕ} (D : SVDData m k)
    (n d t u : ℕ) (cstar : ℝ)
    (hdesc : ∀ a b : Fin (min m k), a ≤ b → D.s b ≤ D.s a) :
    (∀ c : Fin (min m k),
        (c : ℕ) < retainedCount D.s (tauThr n d cstar t u) ↔
          tauThr n d cstar t u ≤ D.s c) ∧
      retainedCount D.s (tauThr n d cstar t u) ≤ min m k ∧
      (retainedCount D.s (tauThr n d cstar t u) = 0 →
        reconstruct D (retainedCount D.s (tauThr n d cstar t u)) = fun _ _ => 0) := by
  classical
  refine ⟨fun c => retainedCount_iff D.s _ hdesc c, ?_, ?_⟩
  · unfold retainedCount
    calc (Finset.univ.filter (fun c => tauThr n d cstar t u ≤ D.s c)).card
        ≤ (Finset.univ : Finset (Fin (min m k))).card := Finset.card_filter_le _ _
      _ = min m k := by rw [Finset.card_univ, Fintype.card_fin]
  · intro h0
    funext a b
    unfold reconstruct
    rw [h0]
    simp

/-- Witness for C5 on a 2×1 block with singular value list `s = [2]` (any
single-element list is descending) and `n = 4`, `d = 2`, `t = u = 0`,
`cstar = 1`. -/
theorem claim_C5_witness :
    (∀ a b : Fin (min 2 1), a ≤ b →
        (⟨fun _ _ => 1, fun _ => (2:ℝ), fun _ _ => 1⟩ : SVDData 2 1).s b ≤
          (⟨fun _ _ => 1, fun _ => (2:ℝ), fun _ _ => 1⟩ : SVDData 2 1).s a) ∧
      retainedCount (⟨fun _ _ => 1, fun _ => (2:ℝ), fun _ _ => 1⟩ : SVDData 2 1).s
        (tauThr 4 2 1 0 0) ≤ min 2 1 := by
  have hdesc : ∀ a b : Fin (min 2 1), a ≤ b →
      (⟨fun _ _ => 1, fun _ => (2:ℝ), fun _ _ => 1⟩ : SVDData 2 1).s b ≤
        (⟨fun _ _ => 1, fun _ => (2:ℝ), fun _ _ => 1⟩ : SVDData 2 1).s a :=
    fun _ _ _ => le_refl 2
  exact ⟨hdesc,
    (claim_C5_rank_truncation _ 4 2 0 0 1 hdesc).2.1⟩

/-- C3 (amended): for a marginal vector all of whose entries are `≤ 1`, the
dyadic partitioning of `our_algo` assigns every index to exactly one level
`t ≤ T`; a value exactly on a boundary `2^{-t}` belongs to the band below it
(level `t` itself), and the value `1` belongs to level `0`.  (Without the
`≤ 1` restriction the claim fails — see the counterexample.) -/
theorem claim_C3_partition_total {d : ℕ} (p : Fin d → ℝ) (hp : ∀ i, p i ≤ 1) :
    (∀ i, ∃! t, t ≤ Tlev d ∧ bandCond (Tlev d) t (p i)) ∧
      (∀ t, t ≤ Tlev d → bandCond (Tlev d) t ((2:ℝ) ^ (-(t:ℤ)))) ∧
      bandCond (Tlev d) 0 1 := by
  refine ⟨fun i => bandCond_existsUnique (hp i), fun t ht => ?_, ?_⟩
  · by_cases hlt : t < Tlev d
    · rw [bandCond_lt hlt]
      refine ⟨le_refl _, ?_⟩
      apply zpow_lt_zpow_right₀ (by norm_num)
      omega
    · have : t = Tlev d := le_antisymm ht (not_lt.mp hlt)
      subst this
      rw [bandCond_last hlt]
  · by_cases hlt : 0 < Tlev d
    · rw [bandCond_lt hlt]
      norm_num
    · rw [bandCond_last hlt]
      have : Tlev d = 0 := Nat.eq_zero_of_not_pos hlt
      rw [this]
      norm_num

/-- Witness for C3 at `d = 2`, `p = [1, 1/4]`: both marginals are `≤ 1` and
each of the two indices lands in exactly one dyadic level. -/
theorem claim_C3_witness :
    (∀ i : Fin 2, (![1, (1/4:ℝ)]) i ≤ 1) ∧
      (∀ i : Fin 2, ∃! t, t ≤ Tlev 2 ∧ bandCond (Tlev 2) t ((![1, (1/4:ℝ)]) i)) := by
  have hp : ∀ i : Fin 2, (![1, (1/4:ℝ)]) i ≤ 1 := by
    intro i
    fin_cases i <;> norm_num
  exact ⟨hp, (claim_C3_partition_total (![1, (1/4:ℝ)]) hp).1⟩

/-- Counterexample to C3 as stated: for `d = 1` and the marginal vector
`p = [2]` (row sums of an unnormalized count matrix exceed `1`, exactly what
`our_algo_2` feeds into `our_algo`), index `0` satisfies no band condition:
the partition omits it, so `res` never receives its entries. -/
theorem claim_C3_counterexample :
    ¬ ∃ t, t ≤ Tlev 1 ∧ bandCond (Tlev 1) t ((fun _ : Fin 1 => (2:ℝ)) 0) := by
  rintro ⟨t, ht, hband⟩
  have hT : Tlev 1 = 0 := Nat.log_one_right 2
  rw [hT] at ht hband
  have ht0 : t = 0 := Nat.le_zero.mp ht
  subst ht0
  rw [bandCond_last (lt_irrefl 0)] at hband
  norm_num at hband

/-- C1 (failure evidence): at `n = 4`, `d = 2`, `Y1 = Y2 = 0` (2×2), all
constants `1`, the assembled matrix is identically zero (every block fails
the energy test and copies the zeros of `Y2`), so its total sum is `0`; the
source still executes the unguarded `res/np.sum(res)` of line 142 — there
is no `DegenerateInput` (or any) error path in `our_algo` — and the returned
entries (NaN in numpy, junk `0/0` here) do not sum to `1`. -/
theorem claim_C1_zero_total_no_error (svdOf : SVDOracle) :
    assembledTotal svdOf 4 2 (fun (_ : Fin 2) (_ : Fin 2) => (0:ℝ))
        (fun _ _ => (0:ℝ)) 1 1 1 = 0 ∧
      our_algo svdOf 4 2 (fun (_ : Fin 2) (_ : Fin 2) => (0:ℝ))
        (fun _ _ => (0:ℝ)) 1 1 1 = (fun _ _ => 0) ∧
      (∑ i, ∑ j, our_algo svdOf 4 2 (fun (_ : Fin 2) (_ : Fin 2) => (0:ℝ))
        (fun _ _ => (0:ℝ)) 1 1 1 i j) ≠ 1 := by
  have hT : Tlev 2 = 1 := Nat.log_eq_of_pow_le_of_lt_pow (by norm_num) (by norm_num)
  have hband : ∀ x : ℝ, x = 0 → bandCond (Tlev 2) 1 x := by
    intro x hx
    rw [hT, bandCond_last (lt_irrefl 1), hx]
    norm_num
  have hm : ∀ i : Fin 2, rowMarg (fun (_ : Fin 2) (_ : Fin 2) => (0:ℝ)) i = 0 := by
    intro i
    unfold rowMarg
    simp
  have hmc : ∀ j : Fin 2, colMarg (fun (_ : Fin 2) (_ : Fin 2) => (0:ℝ)) j = 0 := by
    intro j
    unfold colMarg
    simp
  have hassembled : ∀ (i j : Fin 2),
      assembled svdOf 4 2 (fun (_ : Fin 2) (_ : Fin 2) => (0:ℝ))
        (fun _ _ => (0:ℝ)) 1 1 1 i j = 0 := by
    intro i j
    have h := @assembled_eq_blockVal 2 2 svdOf 4 2
      (fun (_ : Fin 2) (_ : Fin 2) => (0:ℝ)) (fun _ _ => (0:ℝ)) 1 1 1
      i j 1 1
      (by rw [hT]) (by rw [hT]) (hband _ (hm i)) (hband _ (hmc j))
    rw [h]
    unfold blockVal
    have hz : blockMass (bucket (Tlev 2) 1 (rowMarg (fun (_ : Fin 2) (_ : Fin 2) => (0:ℝ))))
        (bucket (Tlev 2) 1 (colMarg (fun (_ : Fin 2) (_ : Fin 2) => (0:ℝ))))
        (fun _ _ => (0:ℝ)) = 0 := by
      unfold blockMass blockSub
      simp
    have hthr : (0:ℝ) < energyThr 4 2 1 1 := by
      unfold energyThr
      have hl2 : 0 < Real.log 2 := Real.log_pos (by norm_num)
      push_cast
      positivity
    rw [hz]
    simp only [if_pos hthr]
  have htot : assembledTotal svdOf 4 2 (fun (_ : Fin 2) (_ : Fin 2) => (0:ℝ))
      (fun _ _ => (0:ℝ)) 1 1 1 = 0 := by
    unfold assembledTotal
    rw [Finset.sum_eq_zero]
    intro i _
    rw [Finset.sum_eq_zero]
    intro j _
    exact hassembled i j
  have hnd : ¬ ((4:ℕ):ℝ) ≤ ((2:ℕ):ℝ) * Real.log ((2:ℕ):ℝ) := by
    have h2 := Real.log_two_lt_d9
    push_cast
    nlinarith
  have hout : our_algo svdOf 4 2 (fun (_ : Fin 2) (_ : Fin 2) => (0:ℝ))
      (fun _ _ => (0:ℝ)) 1 1 1 = (fun _ _ => 0) := by
    unfold our_algo
    rw [if_neg hnd]
    funext i j
    rw [hassembled i j]
    simp
  refine ⟨htot, hout, ?_⟩
  rw [hout]
  norm_num

/-- C6 (failure evidence): with the literal enclosing-scope semantics of the
module, any non-degenerate call (`n > d·ln d`, e.g. `n = 4`, `d = 2`) raises
`NameError` at `res = np.zeros((d1,d2))`, because the derivation of `d1, d2`
from the input shape (lines 96–97) is commented out and the module defines
no such globals; the degenerate branch, which touches neither name,
succeeds.  The outcome of the non-degenerate branch therefore depends on
the enclosing scope, not on the function's arguments alone. -/
theorem claim_C6_shape_from_enclosing_scope {d1 d2 : ℕ}
    (Y1 Y2 : Fin d1 → Fin d2 → ℝ) (alpha cstar Cbar : ℝ) :
    our_algoModule 4 2 Y1 Y2 alpha cstar Cbar = Except.error PyErr.nameError ∧
      our_algoModule 1 2 Y1 Y2 alpha cstar Cbar =
        Except.ok (fun i j => (Y1 i j + Y2 i j) / 2) := by
  have hnd : ¬ ((4:ℕ):ℝ) ≤ ((2:ℕ):ℝ) * Real.log ((2:ℕ):ℝ) := by
    have h2 := Real.log_two_lt_d9
    push_cast
    nlinarith
  have hdeg : ((1:ℕ):ℝ) ≤ ((2:ℕ):ℝ) * Real.log ((2:ℕ):ℝ) := by
    have h2 := Real.log_two_gt_d9
    push_cast
    nlinarith
  constructor
  · unfold our_algoModule
    rw [if_neg hnd]
  · unfold our_algoModule
    rw [if_pos hdeg]

/-! ### The Univariate Density Estimator `our_algo_3` (lines 157–212)

The function ignores its `n` parameter (`n = len(Z)` is reassigned at
entry).  `np.min`/`np.max` on an empty calibration slice raise
`ValueError`; `math.floor(..)**(-1)` raises `ZeroDivisionError` when the
floor is `0`. -/

/-- Minimum of a list, as `np.min` computes it on a nonempty array (the
`[]` case is junk; callers guard it with a `ValueError`). -/
def lmin : List ℝ → ℝ
  | [] => 0
  | x :: xs => xs.foldl min x

/-- Maximum of a list, as `np.max` computes it on a nonempty array. -/
def lmax : List ℝ → ℝ
  | [] => 0
  | x :: xs => xs.foldl max x

/-- Calibration half `Z[:int(n/2)]` with `n = len(Z)`. -/
def calibOf (Z : List ℝ) : List ℝ := Z.take (Z.length / 2)

/-- Estimation slice `Z[int(n/2)+1:]` (the boundary sample at index `n/2`
belongs to neither half). -/
def estOf (Z : List ℝ) : List ℝ := Z.drop (Z.length / 2 + 1)

/-- The bin-width denominator `math.floor((R-r)*n**(1/3)*L**(1/2))` of
line 194 (and of `h_1`, `h_2` at lines 289–290), for support width `w`. -/
noncomputable def bwDenom (w : ℝ) (n : ℕ) (L : ℝ) : ℤ :=
  ⌊w * (n:ℝ) ^ ((1/3 : ℝ)) * L ^ ((1/2 : ℝ))⌋

/-- The bin width `H = math.floor((R-r)*n**(1/3)*L**(1/2))**(-1)*(R-r)`
(junk when the denominator is `0`; the running code raises there). -/
noncomputable def binW (w : ℝ) (n : ℕ) (L : ℝ) : ℝ :=
  ((bwDenom w n L : ℝ))⁻¹ * w

/-- The bin-width computation as the unit the spec's Histogram Builder
describes: Python evaluates `math.floor(...)**(-1)`, and an integer `0`
raised to a negative power raises an untyped `ZeroDivisionError` — there is
no `InvalidBandwidth` anywhere in the source. -/
noncomputable def binWidthComp (w : ℝ) (n : ℕ) (L : ℝ) : Except PyErr ℝ :=
  if bwDenom w n L = 0 then Except.error PyErr.zeroDivision
  else Except.ok (binW w n L)

/-- Integer range `np.arange(a, b)` (empty when `b ≤ a`). -/
def intRange (a b : ℤ) : List ℤ :=
  (List.range (b - a).toNat).map (fun k => a + (k : ℤ))

/-- Offset list `E = np.arange(-math.floor(r/H), math.ceil((1-r)/H-1))`. -/
noncomputable def offsetsFrom (r H : ℝ) : List ℤ :=
  intRange (-⌊r / H⌋) ⌈(1 - r) / H - 1⌉

open Classical in
/-- Count `sum([1 for k in est if a <= k < b])` of estimation samples in
`[a, b)` (the code stores it as a float entry of `N`). -/
noncomputable def binCount (est : List ℝ) (a b : ℝ) : ℝ :=
  (est.map (fun k => if a ≤ k ∧ k < b then (1:ℝ) else 0)).sum

/-- The numpy read `N[i]` with a Python integer index: a negative index
wraps around to `N[len(N)+i]`.  An index outside `[-len, len)` raises
`IndexError` in numpy; the model returns the junk default `0` there (no
theorem below exercises that case). -/
def npGetZ (N : List ℝ) (i : ℤ) : ℝ :=
  if 0 ≤ i then N.getD i.toNat 0 else N.getD (N.length - (-i).toNat) 0

open Classical in
/-- The body of the returned closure `f_1` of lines 197–210: one pass over
`enumerate(E)` which, at position `c` with offset `i`, first stores
`N[c] = binCount est (r+i*H) (r+(i+1)*H)` into the (initially all-zero)
array `N` and then, if `i*H <= x <= (i+1)*H` — the unshifted, doubly-closed
membership test of line 207 — adds `N[i]` (indexed by the *offset*, with
numpy wrap-around, not by the position) to the accumulator `s`.  Returns
the final `s`. -/
noncomputable def f1Loop (r H x : ℝ) (E : List ℤ) (est : List ℝ) : ℝ :=
  (E.enum.foldl
    (fun (st : List ℝ × ℝ) ci =>
      let N1 := st.1.set ci.1
        (binCount est (r + (ci.2 : ℝ) * H) (r + ((ci.2 : ℝ) + 1) * H))
      (N1,
        if (ci.2 : ℝ) * H ≤ x ∧ x ≤ ((ci.2 : ℝ) + 1) * H then
          st.2 + npGetZ N1 ci.2
        else st.2))
    (List.replicate E.length 0, 0)).2

open Classical in
/-- The Univariate Density Estimator `our_algo_3(n, Z, L)`.  The parameter
`n` is dead (`n = len(Z)` at line 184).  Narrow branch: the literal
reversed bound test of line 190.  General branch: bin width `H` (raising
`ZeroDivisionError` when the floor is zero), offsets `E`, and the closure
`f_1` returning `(1/H)*s`. -/
noncomputable def our_algo_3 (n0 : ℕ) (Z : List ℝ) (L : ℝ) :
    Except PyErr (ℝ → ℝ) :=
  if calibOf Z = [] then Except.error PyErr.valueError
  else if lmax (calibOf Z) - lmin (calibOf Z) <
      (Z.length : ℝ) ^ (-(1/3 : ℝ)) * L ^ (-(1/2 : ℝ)) then
    Except.ok (fun x =>
      if x ≤ lmin (calibOf Z) ∧ x ≥ lmax (calibOf Z) then
        1 / (lmax (calibOf Z) - lmin (calibOf Z))
      else 0)
  else if bwDenom (lmax (calibOf Z) - lmin (calibOf Z)) Z.length L = 0 then
    Except.error PyErr.zeroDivision
  else
    Except.ok (fun x =>
      (1 / binW (lmax (calibOf Z) - lmin (calibOf Z)) Z.length L) *
        f1Loop (lmin (calibOf Z))
          (binW (lmax (calibOf Z) - lmin (calibOf Z)) Z.length L) x
          (offsetsFrom (lmin (calibOf Z))
            (binW (lmax (calibOf Z) - lmin (calibOf Z)) Z.length L))
          (estOf Z))

/-- C7: in the narrow-range branch, the returned function is the constant
`1/(R-r)` exactly on the inputs passing the literal reversed bound test
`x <= r and x >= R` of line 190, and `0` on every other input. -/
theorem claim_C7_narrow_reversed_bounds (n0 : ℕ) (Z : List ℝ) (L : ℝ)
    (hne : calibOf Z ≠ [])
    (hnarrow : lmax (calibOf Z) - lmin (calibOf Z) <
      (Z.length : ℝ) ^ (-(1/3 : ℝ)) * L ^ (-(1/2 : ℝ))) :
    ∃ f, our_algo_3 n0 Z L = Except.ok f ∧
      ∀ x : ℝ,
        (x ≤ lmin (calibOf Z) ∧ x ≥ lmax (calibOf Z) →
          f x = 1 / (lmax (calibOf Z) - lmin (calibOf Z))) ∧
        (¬ (x ≤ lmin (calibOf Z) ∧ x ≥ lmax (calibOf Z)) → f x = 0) := by
  classical
  refine ⟨fun x =>
    if x ≤ lmin (calibOf Z) ∧ x ≥ lmax (calibOf Z) then
      1 / (lmax (calibOf Z) - lmin (calibOf Z))
    else 0, ?_, ?_⟩
  · unfold our_algo_3
    rw [if_neg hne, if_pos hnarrow]
  · intro x
    constructor
    · intro hx
      simp only [if_pos hx]
    · intro hx
      simp only [if_neg hx]

/-- Witness for C7: `Z = [0,0,0,0]`, `L = 1` (the 1D narrow-range scenario
with all mass at one point); the calibration half is `[0,0]`, its range `0`
is below `4^{-1/3}`, and the input `x = 0` passes the reversed test. -/
theorem claim_C7_witness :
    calibOf [0, 0, 0, 0] ≠ [] ∧
      lmax (calibOf [0, 0, 0, 0]) - lmin (calibOf [0, 0, 0, 0]) <
        ((List.length [(0:ℝ), 0, 0, 0] : ℕ) : ℝ) ^ (-(1/3 : ℝ)) *
          (1:ℝ) ^ (-(1/2 : ℝ)) ∧
      ∃ f, our_algo_3 4 [0, 0, 0, 0] 1 = Except.ok f ∧
        ∀ x : ℝ,
          (x ≤ lmin (calibOf [0, 0, 0, 0]) ∧ x ≥ lmax (calibOf [0, 0, 0, 0]) →
            f x = 1 / (lmax (calibOf [0, 0, 0, 0]) - lmin (calibOf [0, 0, 0, 0]))) ∧
          (¬ (x ≤ lmin (calibOf [0, 0, 0, 0]) ∧ x ≥ lmax (calibOf [0, 0, 0, 0])) →
            f x = 0) := by
  have hne : calibOf [(0:ℝ), 0, 0, 0] ≠ [] := by
    unfold calibOf
    simp
  have hnarrow : lmax (calibOf [(0:ℝ), 0, 0, 0]) - lmin (calibOf [(0:ℝ), 0, 0, 0]) <
      ((List.length [(0:ℝ), 0, 0, 0] : ℕ) : ℝ) ^ (-(1/3 : ℝ)) * (1:ℝ) ^ (-(1/2 : ℝ)) := by
    have hc : calibOf [(0:ℝ), 0, 0, 0] = [0, 0] := by
      unfold calibOf
      simp
    rw [hc]
    unfold lmax lmin
    have h4 : (0:ℝ) < ((List.length [(0:ℝ), 0, 0, 0] : ℕ) : ℝ) ^ (-(1/3 : ℝ)) *
        (1:ℝ) ^ (-(1/2 : ℝ)) := by
      apply mul_pos
      · apply Real.rpow_pos_of_pos
        norm_num
      · apply Real.rpow_pos_of_pos
        norm_num
    simpa using h4
  exact ⟨hne, hnarrow, claim_C7_narrow_reversed_bounds 4 _ 1 hne hnarrow⟩

theorem rpow_third_of_eight : (8:ℝ) ^ ((1/3 : ℝ)) = 2 := by
  have h8 : (8:ℝ) = (2:ℝ) ^ (3:ℝ) := by
    rw [show (3:ℝ) = ((3:ℕ):ℝ) by norm_num, Real.rpow_natCast]
    norm_num
  have h3 : (3:ℝ) * (1/3) = 1 := by norm_num
  rw [h8, ← Real.rpow_mul (by norm_num : (0:ℝ) ≤ 2), h3, Real.rpow_one]

theorem rpow_neg_third_of_eight : (8:ℝ) ^ (-(1/3 : ℝ)) = 1/2 := by
  rw [Real.rpow_neg (by norm_num : (0:ℝ) ≤ 8), rpow_third_of_eight]
  norm_num

/-- Under the narrow-range guard (`w ≥ n^{-1/3}·L^{-1/2}`), the bin-width
denominator is at least `1`: the zero-denominator failure is unreachable
from the general branches. -/
theorem bwDenom_ge_one {n : ℕ} {L w : ℝ} (hn : 0 < n) (hL : 0 < L)
    (hw : (n:ℝ) ^ (-(1/3 : ℝ)) * L ^ (-(1/2 : ℝ)) ≤ w) :
    1 ≤ bwDenom w n L := by
  have hnR : (0:ℝ) < (n:ℝ) := by exact_mod_cast hn
  have hprod : (n:ℝ) ^ (-(1/3 : ℝ)) * L ^ (-(1/2 : ℝ)) *
      ((n:ℝ) ^ ((1/3 : ℝ)) * L ^ ((1/2 : ℝ))) = 1 := by
    rw [Real.rpow_neg (le_of_lt hnR), Real.rpow_neg (le_of_lt hL)]
    have hn3 : (n:ℝ) ^ ((1/3 : ℝ)) ≠ 0 :=
      ne_of_gt (Real.rpow_pos_of_pos hnR _)
    have hL2 : L ^ ((1/2 : ℝ)) ≠ 0 :=
      ne_of_gt (Real.rpow_pos_of_pos hL _)
    field_simp
  have hpos : (0:ℝ) < (n:ℝ) ^ ((1/3 : ℝ)) * L ^ ((1/2 : ℝ)) :=
    mul_pos (Real.rpow_pos_of_pos hnR _) (Real.rpow_pos_of_pos hL _)
  have h1 : (1:ℝ) ≤ w * (n:ℝ) ^ ((1/3 : ℝ)) * L ^ ((1/2 : ℝ)) := by
    nlinarith [mul_le_mul_of_nonneg_right hw (le_of_lt hpos)]
  unfold bwDenom
  exact Int.le_floor.mpr (by exact_mod_cast h1)

/-- Counterexample to C10 as stated, at the level of the bin-width
computation the claim points at (line 194): for `width = 1/10`, `n = 8`,
`L = 1` the denominator `⌊(1/10)·8^{1/3}·1⌋ = ⌊1/5⌋` is `0`, and the code
fails with the untyped `ZeroDivisionError` of `0**(-1)` — a raw division
failure, not a typed `InvalidBandwidth` error. -/
theorem claim_C10_counterexample :
    bwDenom (1/10) 8 1 = 0 ∧
      binWidthComp (1/10) 8 1 = Except.error PyErr.zeroDivision ∧
      (Except.error PyErr.zeroDivision : Except PyErr ℝ) ≠
        Except.error PyErr.invalidBandwidth := by
  have hd : bwDenom (1/10) 8 1 = 0 := by
    unfold bwDenom
    have hc : ((8:ℕ):ℝ) = (8:ℝ) := by norm_num
    rw [hc, rpow_third_of_eight, Real.one_rpow]
    have : (1/10 : ℝ) * 2 * 1 = 1/5 := by norm_num
    rw [this]
    rw [Int.floor_eq_zero_iff]
    constructor <;> norm_num
  refine ⟨hd, ?_, by simp⟩
  unfold binWidthComp
  rw [if_pos hd]

/-- C10 (amended): in the general branches the narrow-range guards make a
zero denominator impossible — under either guard (`w ≥ n^{-1/3}·L^{-1/2}`
for `our_algo_3`, `w ≥ n^{1/3}·L^{-1/2}` for `our_algo_2`) the floor is
`≥ 1`, the bin-width computation succeeds, and `our_algo_3` never raises
the division failure; a zero denominator, reachable only outside those
branches, raises the untyped `ZeroDivisionError` (see the counterexample),
as the source defines no `InvalidBandwidth` error. -/
theorem claim_C10_guarded_denominator :
    (∀ (n : ℕ) (L w : ℝ), 0 < n → 0 < L →
        ((n:ℝ) ^ (-(1/3 : ℝ)) * L ^ (-(1/2 : ℝ)) ≤ w ∨
          (n:ℝ) ^ ((1/3 : ℝ)) * L ^ (-(1/2 : ℝ)) ≤ w) →
        1 ≤ bwDenom w n L ∧ binWidthComp w n L = Except.ok (binW w n L)) ∧
      (∀ (n0 : ℕ) (Z : List ℝ) (L : ℝ), 0 < L →
        our_algo_3 n0 Z L ≠ Except.error PyErr.zeroDivision) := by
  constructor
  · intro n L w hn hL hguard
    have hnR : (0:ℝ) < (n:ℝ) := by exact_mod_cast hn
    have hw : (n:ℝ) ^ (-(1/3 : ℝ)) * L ^ (-(1/2 : ℝ)) ≤ w := by
      rcases hguard with h | h
      · exact h
      · refine le_trans ?_ h
        apply mul_le_mul_of_nonneg_right _ (le_of_lt (Real.rpow_pos_of_pos hL _))
        apply Real.rpow_le_rpow_of_exponent_le
        · exact_mod_cast hn
        · norm_num
    have hden := bwDenom_ge_one hn hL hw
    refine ⟨hden, ?_⟩
    unfold binWidthComp
    rw [if_neg (by omega)]
  · intro n0 Z L hL hcontra
    unfold our_algo_3 at hcontra
    by_cases h1 : calibOf Z = []
    · rw [if_pos h1] at hcontra
      exact PyErr.noConfusion (Except.error.inj hcontra)
    · rw [if_neg h1] at hcontra
      by_cases h2 : lmax (calibOf Z) - lmin (calibOf Z) <
          (Z.length : ℝ) ^ (-(1/3 : ℝ)) * L ^ (-(1/2 : ℝ))
      · rw [if_pos h2] at hcontra
        exact Except.noConfusion hcontra
      · rw [if_neg h2] at hcontra
        have hn : 0 < Z.length := by
          rcases Z with _ | ⟨z, zs⟩
          · exact absurd rfl h1
          · simp
        have hden := bwDenom_ge_one hn hL (not_lt.mp h2)
        rw [if_neg (by omega)] at hcontra
        exact Except.noConfusion hcontra

/-- Witness for C10 (amended) at `n = 1`, `L = 1`, `w = 1` for the guard
part and at `Z = [0,0,0,0]`, `L = 1` for the `our_algo_3` part. -/
theorem claim_C10_witness :
    (1 ≤ bwDenom 1 1 1 ∧ binWidthComp 1 1 1 = Except.ok (binW 1 1 1)) ∧
      our_algo_3 4 [0, 0, 0, 0] 1 ≠ Except.error PyErr.zeroDivision := by
  constructor
  · apply claim_C10_guarded_denominator.1 1 1 1 (by norm_num) (by norm_num)
    left
    rw [Nat.cast_one, Real.one_rpow, Real.one_rpow]
    norm_num
  · exact claim_C10_guarded_denominator.2 4 [0, 0, 0, 0] 1 (by norm_num)

/-- Concrete input exhibiting the bin-lookup defect of `f_1` (line 207):
`n = 8`, calibration half `[1/2, 3/2, 1/2, 3/2]` (so `r = 1/2`, `R = 3/2`,
one bin of width `1/2` at offset `-1`), estimation slice `[1/4, 1/4, 1/4]`
all inside that bin. -/
noncomputable def zC8 : List ℝ := [1/2, 3/2, 1/2, 3/2, 0, 1/4, 1/4, 1/4]

/-- C8 (failure evidence): on `zC8` with `L = 1`, the grid has the single
bin `[r + i·H, r + (i+1)·H) = [0, 1/2)` for the offset `i = -1`, the point
`x = 1/4` lies in it, and its count is `3` — so the claimed density is
`N[bin containing x]/H = 3/(1/2) = 6` — yet the returned function gives
`f(1/4) = 0`: the membership test of line 207 compares `x` against
`i·H ≤ x ≤ (i+1)·H`, forgetting the `r` shift (and reads `N[i]` by offset
value instead of position). -/
theorem claim_C8_wrong_bin_lookup :
    offsetsFrom (lmin (calibOf zC8))
        (binW (lmax (calibOf zC8) - lmin (calibOf zC8)) zC8.length 1) = [-1] ∧
      lmin (calibOf zC8) + ((-1:ℤ):ℝ) *
        binW (lmax (calibOf zC8) - lmin (calibOf zC8)) zC8.length 1 = 0 ∧
      lmin (calibOf zC8) + (((-1:ℤ):ℝ) + 1) *
        binW (lmax (calibOf zC8) - lmin (calibOf zC8)) zC8.length 1 = 1/2 ∧
      ((0:ℝ) ≤ 1/4 ∧ (1/4:ℝ) < 1/2) ∧
      binCount (estOf zC8) 0 (1/2) = 3 ∧
      (∃ f, our_algo_3 8 zC8 1 = Except.ok f ∧ f (1/4) = 0) ∧
      (0:ℝ) ≠ 3 / binW (lmax (calibOf zC8) - lmin (calibOf zC8)) zC8.length 1 := by
  classical
  have hcal : calibOf zC8 = [1/2, 3/2, 1/2, 3/2] := rfl
  have hlen : zC8.length = 8 := rfl
  have hmin : lmin (calibOf zC8) = 1/2 := by
    rw [hcal]
    unfold lmin
    norm_num [min_def]
  have hmax : lmax (calibOf zC8) = 3/2 := by
    rw [hcal]
    unfold lmax
    norm_num [max_def]
  have hw : lmax (calibOf zC8) - lmin (calibOf zC8) = 1 := by
    rw [hmin, hmax]
    norm_num
  have h8c : ((8:ℕ):ℝ) = (8:ℝ) := by norm_num
  have hden : bwDenom (lmax (calibOf zC8) - lmin (calibOf zC8)) zC8.length 1 = 2 := by
    rw [hw, hlen]
    unfold bwDenom
    rw [h8c, rpow_third_of_eight, Real.one_rpow]
    norm_num
  have hbinW : binW (lmax (calibOf zC8) - lmin (calibOf zC8)) zC8.length 1 = 1/2 := by
    unfold binW
    rw [hden, hw]
    norm_num
  have hoffs2 : offsetsFrom (1/2 : ℝ) (1/2) = [-1] := by
    unfold offsetsFrom
    have hfl : ⌊(1/2 : ℝ) / (1/2)⌋ = 1 := by norm_num
    have hcl : ⌈(1 - (1/2 : ℝ)) / (1/2) - 1⌉ = 0 := by norm_num
    rw [hfl, hcl]
    decide
  have hoffs : offsetsFrom (lmin (calibOf zC8))
      (binW (lmax (calibOf zC8) - lmin (calibOf zC8)) zC8.length 1) = [-1] := by
    rw [hbinW, hmin]
    exact hoffs2
  have hest : estOf zC8 = [1/4, 1/4, 1/4] := rfl
  have hcount : binCount (estOf zC8) 0 (1/2) = 3 := by
    rw [hest]
    unfold binCount
    norm_num
  have hguard : ¬ (lmax (calibOf zC8) - lmin (calibOf zC8) <
      (zC8.length : ℝ) ^ (-(1/3 : ℝ)) * (1:ℝ) ^ (-(1/2 : ℝ))) := by
    rw [hw, hlen, h8c, rpow_neg_third_of_eight, Real.one_rpow]
    norm_num
  have hne : calibOf zC8 ≠ [] := by
    rw [hcal]
    simp
  refine ⟨hoffs, by rw [hbinW, hmin]; norm_num, by rw [hbinW, hmin]; norm_num,
    by norm_num, hcount, ?_, by rw [hbinW]; norm_num⟩
  unfold our_algo_3
  rw [if_neg hne, if_neg hguard, if_neg (by rw [hden]; norm_num)]
  refine ⟨_, rfl, ?_⟩
  rw [hbinW, hmin, hoffs2, hest]
  have hloop : f1Loop (1/2) (1/2) (1/4) [-1] [1/4, 1/4, 1/4] = 0 := by
    unfold f1Loop
    have henum : ([-1] : List ℤ).enum = [(0, -1)] := rfl
    rw [henum]
    rw [List.foldl_cons, List.foldl_nil]
    have hcond : ¬ ((((-1:ℤ):ℝ)) * (1/2) ≤ 1/4 ∧ (1/4:ℝ) ≤ (((-1:ℤ):ℝ) + 1) * (1/2)) := by
      push_cast
      norm_num
    simp only [if_neg hcond]
  rw [hloop]
  norm_num

/-! ### The Bivariate Density Estimator `our_algo_2` (lines 225–320) -/

/-- Axis-1 calibration slice `X[:int(n/2), 0]`. -/
def calib1 (X : List (ℝ × ℝ)) (n : ℕ) : List ℝ := (X.take (n/2)).map Prod.fst

/-- Axis-2 calibration slice `X[:int(n/2), 1]`. -/
def calib2 (X : List (ℝ × ℝ)) (n : ℕ) : List ℝ := (X.take (n/2)).map Prod.snd

/-- First estimation quarter, the samples `X[k]` for
`k in range(int(n/2)+1, int(3*n/4))`. -/
def slice1 (X : List (ℝ × ℝ)) (n : ℕ) : List (ℝ × ℝ) :=
  (X.drop (n/2 + 1)).take (3*n/4 - (n/2 + 1))

/-- Second estimation quarter, the samples `X[k]` for
`k in range(int(3*n/4), n)`. -/
def slice2 (X : List (ℝ × ℝ)) (n : ℕ) : List (ℝ × ℝ) :=
  (X.drop (3*n/4)).take (n - 3*n/4)

open Classical in
/-- Count `sum([1 if (X[k,0]>=a1)&(X[k,0]<a2)&(X[k,1]>=b1)&(X[k,1]<b2)
else 0 for k in ...])` over a sample slice. -/
noncomputable def cellCount (s : List (ℝ × ℝ)) (a1 a2 b1 b2 : ℝ) : ℝ :=
  (s.map (fun v =>
    if a1 ≤ v.1 ∧ v.1 < a2 ∧ b1 ≤ v.2 ∧ v.2 < b2 then (1:ℝ) else 0)).sum

/-- The call `np.max(len(E_1), len(E_2))` of line 309: `np.max` takes one
array plus an `axis` argument, so the second length is consumed as `axis`.
On a 0-d (scalar) input numpy accepts only the legacy axes `0`/`-1` (giving
back the scalar) and raises `AxisError` for any positive axis — it never
computes the maximum of the two lengths. -/
def npMaxScalarAxis (v : ℕ) (axis : ℕ) : Except PyErr ℕ :=
  if axis = 0 then Except.ok v else Except.error PyErr.axisError

/-- Axis-1 bin width `h_1` (line 289). -/
noncomputable def h1w (X : List (ℝ × ℝ)) (n : ℕ) (L : ℝ) : ℝ :=
  binW (lmax (calib1 X n) - lmin (calib1 X n)) n L

/-- Axis-2 bin width `h_2` (line 290). -/
noncomputable def h2w (X : List (ℝ × ℝ)) (n : ℕ) (L : ℝ) : ℝ :=
  binW (lmax (calib2 X n) - lmin (calib2 X n)) n L

/-- Axis-1 offsets `E_1` (line 292). -/
noncomputable def offs1 (X : List (ℝ × ℝ)) (n : ℕ) (L : ℝ) : List ℤ :=
  offsetsFrom (lmin (calib1 X n)) (h1w X n L)

/-- Axis-2 offsets `E_2` (line 293). -/
noncomputable def offs2 (X : List (ℝ × ℝ)) (n : ℕ) (L : ℝ) : List ℤ :=
  offsetsFrom (lmin (calib2 X n)) (h2w X n L)

open Classical in
/-- Count matrix `N_1` over the first estimation quarter (line 306). -/
noncomputable def countMat1 (X : List (ℝ × ℝ)) (n : ℕ) (L : ℝ) :
    Fin (offs1 X n L).length → Fin (offs2 X n L).length → ℝ :=
  fun c1 c2 => cellCount (slice1 X n)
    (lmin (calib1 X n) + (((offs1 X n L).get c1 : ℤ) : ℝ) * h1w X n L)
    (lmin (calib1 X n) + ((((offs1 X n L).get c1 : ℤ) : ℝ) + 1) * h1w X n L)
    (lmin (calib2 X n) + (((offs2 X n L).get c2 : ℤ) : ℝ) * h2w X n L)
    (lmin (calib2 X n) + ((((offs2 X n L).get c2 : ℤ) : ℝ) + 1) * h2w X n L)

open Classical in
/-- Count matrix `N_2` over the second estimation quarter (line 307). -/
noncomputable def countMat2 (X : List (ℝ × ℝ)) (n : ℕ) (L : ℝ) :
    Fin (offs1 X n L).length → Fin (offs2 X n L).length → ℝ :=
  fun c1 c2 => cellCount (slice2 X n)
    (lmin (calib1 X n) + (((offs1 X n L).get c1 : ℤ) : ℝ) * h1w X n L)
    (lmin (calib1 X n) + ((((offs1 X n L).get c1 : ℤ) : ℝ) + 1) * h1w X n L)
    (lmin (calib2 X n) + (((offs2 X n L).get c2 : ℤ) : ℝ) * h2w X n L)
    (lmin (calib2 X n) + ((((offs2 X n L).get c2 : ℤ) : ℝ) + 1) * h2w X n L)

open Classical in
/-- The returned closure `f_1(x,y)` of lines 312–318: linear scan of the
grid accumulating `P[c1,c2]` over the (properly `r`-shifted, half-open)
cells containing `(x,y)`, scaled by `1/(h_1*h_2)`. -/
noncomputable def densityFun (X : List (ℝ × ℝ)) (n : ℕ) (L : ℝ)
    (P : Fin (offs1 X n L).length → Fin (offs2 X n L).length → ℝ) :
    ℝ → ℝ → ℝ :=
  fun x y => (1 / (h1w X n L * h2w X n L)) *
    ∑ c1, ∑ c2,
      if lmin (calib1 X n) + (((offs1 X n L).get c1 : ℤ) : ℝ) * h1w X n L ≤ x ∧
          x < lmin (calib1 X n) + ((((offs1 X n L).get c1 : ℤ) : ℝ) + 1) * h1w X n L ∧
          lmin (calib2 X n) + (((offs2 X n L).get c2 : ℤ) : ℝ) * h2w X n L ≤ y ∧
          y < lmin (calib2 X n) + ((((offs2 X n L).get c2 : ℤ) : ℝ) + 1) * h2w X n L
      then P c1 c2 else 0

open Classical in
/-- The Bivariate Density Estimator `our_algo_2(n,X,alpha,L,C,Cbar,cstar)`.
The module-global assignment `h = C/(n**(-1/3)*np.sqrt(L))` (lines 264–265)
is a dead side effect on every return path and is not modelled.  Degenerate
axes delegate to `our_algo_3` (whose errors propagate); the general branch
computes both bin widths (raising `ZeroDivisionError` on a zero floor),
builds `N_1, N_2`, evaluates `np.max(len(E_1), len(E_2))`, feeds the block
estimator (the module version, whose non-degenerate branch raises
`NameError`), and wraps the resulting `P` in the grid-scan closure. -/
noncomputable def our_algo_2 (n : ℕ) (X : List (ℝ × ℝ))
    (alpha L C Cbar cstar : ℝ) : Except PyErr (ℝ → ℝ → ℝ) :=
  if calib1 X n = [] then Except.error PyErr.valueError
  else if lmax (calib1 X n) - lmin (calib1 X n) <
      (n : ℝ) ^ ((1/3 : ℝ)) * L ^ (-(1/2 : ℝ)) then
    Except.map (fun g => fun x y =>
        if x ≥ lmin (calib1 X n) ∧ x ≤ lmax (calib1 X n) then
          (1 / (lmax (calib1 X n) - lmin (calib1 X n))) * g y
        else 0)
      (our_algo_3 n ((X.drop (n/2 + 1)).map Prod.snd) L)
  else if calib2 X n = [] then Except.error PyErr.valueError
  else if lmax (calib2 X n) - lmin (calib2 X n) <
      (n : ℝ) ^ ((1/3 : ℝ)) * L ^ (-(1/2 : ℝ)) then
    Except.map (fun g => fun x y =>
        if y ≥ lmin (calib2 X n) ∧ y ≤ lmax (calib2 X n) then
          (1 / (lmax (calib2 X n) - lmin (calib2 X n))) * g x
        else 0)
      (our_algo_3 n ((X.drop (n/2 + 1)).map Prod.fst) L)
  else if bwDenom (lmax (calib1 X n) - lmin (calib1 X n)) n L = 0 then
    Except.error PyErr.zeroDivision
  else if bwDenom (lmax (calib2 X n) - lmin (calib2 X n)) n L = 0 then
    Except.error PyErr.zeroDivision
  else
    Except.bind (npMaxScalarAxis (offs1 X n L).length (offs2 X n L).length)
      (fun d => Except.map (densityFun X n L)
        (our_algoModule (n/2) d (countMat1 X n L) (countMat2 X n L)
          alpha cstar Cbar))

/-- Concrete input driving `our_algo_2` into its general branch: `n = 8`,
both axis calibration slices `[0,3,0,3]` (ranges of width `3 ≥ 8^{1/3}`),
giving a single grid offset per axis. -/
noncomputable def xC9 : List (ℝ × ℝ) :=
  [(0,0), (3,3), (0,0), (3,3), (0,0), (0,0), (0,0), (0,0)]

/-- C9 (failure evidence): on `xC9` the general branch is reached with
`len(E_1) = len(E_2) = 1`, and the call `np.max(len(E_1), len(E_2))` —
meant to be the dimension bound `max(d1,d2)` — is numpy `amax` of the
scalar `1` with `axis=1`, which raises `AxisError`: the whole estimator
fails instead of producing a density function. -/
theorem claim_C9_npmax_axis_error :
    (offs1 xC9 8 1).length = 1 ∧ (offs2 xC9 8 1).length = 1 ∧
      npMaxScalarAxis 1 1 = Except.error PyErr.axisError ∧
      our_algo_2 8 xC9 1 1 1 1 1 = Except.error PyErr.axisError := by
  classical
  have hc1 : calib1 xC9 8 = [0, 3, 0, 3] := rfl
  have hc2 : calib2 xC9 8 = [0, 3, 0, 3] := rfl
  have hmin0 : lmin [(0:ℝ), 3, 0, 3] = 0 := by
    unfold lmin
    norm_num [min_def]
  have hmax0 : lmax [(0:ℝ), 3, 0, 3] = 3 := by
    unfold lmax
    norm_num [max_def]
  have h8c : ((8:ℕ):ℝ) = (8:ℝ) := by norm_num
  have hguard1 : ¬ (lmax (calib1 xC9 8) - lmin (calib1 xC9 8) <
      ((8:ℕ) : ℝ) ^ ((1/3 : ℝ)) * (1:ℝ) ^ (-(1/2 : ℝ))) := by
    rw [hc1, hmin0, hmax0, h8c, rpow_third_of_eight, Real.one_rpow]
    norm_num
  have hguard2 : ¬ (lmax (calib2 xC9 8) - lmin (calib2 xC9 8) <
      ((8:ℕ) : ℝ) ^ ((1/3 : ℝ)) * (1:ℝ) ^ (-(1/2 : ℝ))) := by
    rw [hc2, hmin0, hmax0, h8c, rpow_third_of_eight, Real.one_rpow]
    norm_num
  have hden1 : bwDenom (lmax (calib1 xC9 8) - lmin (calib1 xC9 8)) 8 1 = 6 := by
    rw [hc1, hmin0, hmax0]
    unfold bwDenom
    rw [h8c, rpow_third_of_eight, Real.one_rpow]
    norm_num
  have hden2 : bwDenom (lmax (calib2 xC9 8) - lmin (calib2 xC9 8)) 8 1 = 6 := by
    rw [hc2, hmin0, hmax0]
    unfold bwDenom
    rw [h8c, rpow_third_of_eight, Real.one_rpow]
    norm_num
  have hh1 : h1w xC9 8 1 = 1/2 := by
    unfold h1w binW
    rw [hden1, hc1, hmin0, hmax0]
    norm_num
  have hh2 : h2w xC9 8 1 = 1/2 := by
    unfold h2w binW
    rw [hden2, hc2, hmin0, hmax0]
    norm_num
  have hoffs0 : offsetsFrom (0:ℝ) (1/2) = [0] := by
    unfold offsetsFrom
    have hfl : ⌊(0:ℝ) / (1/2)⌋ = 0 := by norm_num
    have hcl : ⌈(1 - (0:ℝ)) / (1/2) - 1⌉ = 1 := by norm_num
    rw [hfl, hcl]
    decide
  have hoffs1 : offs1 xC9 8 1 = [0] := by
    unfold offs1
    rw [hh1, hc1, hmin0]
    exact hoffs0
  have hoffs2 : offs2 xC9 8 1 = [0] := by
    unfold offs2
    rw [hh2, hc2, hmin0]
    exact hoffs0
  have hlen1 : (offs1 xC9 8 1).length = 1 := by rw [hoffs1]; rfl
  have hlen2 : (offs2 xC9 8 1).length = 1 := by rw [hoffs2]; rfl
  have hnpmax : npMaxScalarAxis 1 1 = Except.error PyErr.axisError := by
    unfold npMaxScalarAxis
    rw [if_neg one_ne_zero]
  refine ⟨hlen1, hlen2, hnpmax, ?_⟩
  unfold our_algo_2
  rw [if_neg (by rw [hc1]; simp : calib1 xC9 8 ≠ []),
    if_neg hguard1,
    if_neg (by rw [hc2]; simp : calib2 xC9 8 ≠ []),
    if_neg hguard2,
    if_neg (by rw [hden1]; norm_num),
    if_neg (by rw [hden2]; norm_num)]
  have hnp : npMaxScalarAxis (offs1 xC9 8 1).length (offs2 xC9 8 1).length =
      Except.error PyErr.axisError := by
    rw [hlen1, hlen2]
    exact hnpmax
  rw [hnp]
  rfl

end DensLowRank
